import Mathlib

/-!
Verification of the answer-extraction pipeline of the GSM8k-Aug repository
(`create_gsm8k_metamath.py`, `create_gsm8k_mumath.py`,
`create_gsm8k_mugglemath.py`).

Python strings are modelled as `List Char`.  The three Python source files
share, character for character, the helpers `last_boxed_only_string` and
`remove_boxed`; `create_gsm8k_metamath.py` and `create_gsm8k_mumath.py`
additionally share `extract_answer_from_text` (the phrase regexes) and a
phrase-first `extract_answer`, while `create_gsm8k_mugglemath.py` has a
boxed-first `extract_answer` with no phrase stage.  The external
`math_verify.parse` collaborator is abstracted as a function parameter
`sym : List Char → Option (List Char)` giving the string of the last parsed
expression, when any; `noSym` models the collaborator being unavailable.
-/

/-- Python whitespace test used by `str.strip` and the regex class `\s`
(ASCII range; the inputs of interest are ASCII). -/
def isPySpace (c : Char) : Bool :=
  c = ' ' || c = '\t' || c = '\n' || c = '\r' || c = '\x0b' || c = '\x0c'

/-- Remove trailing whitespace: the right half of Python `str.strip()`. -/
def trimRight (l : List Char) : List Char :=
  (l.reverse.dropWhile isPySpace).reverse

/-- Python `str.strip()`: remove leading and trailing whitespace. -/
def pyStrip (l : List Char) : List Char :=
  trimRight (l.dropWhile isPySpace)

/-- Python `str.rstrip(".")`: remove every trailing dot. -/
def rstripDots (l : List Char) : List Char :=
  (l.reverse.dropWhile (fun c => c = '.')).reverse

/-- The literal `\boxed` searched by `string.rfind("\\boxed")`. -/
def bxPat : List Char := ['\\', 'b', 'o', 'x', 'e', 'd']

/-- The literal `\fbox` searched by `string.rfind("\\fbox")`. -/
def fbPat : List Char := ['\\', 'f', 'b', 'o', 'x']

/-- The prefix `\boxed ` (trailing space) tested first by `remove_boxed`. -/
def bxSpace : List Char := ['\\', 'b', 'o', 'x', 'e', 'd', ' ']

/-- The prefix `\boxed` followed by an opening brace. -/
def bxBrace : List Char := ['\\', 'b', 'o', 'x', 'e', 'd', '\x7b']

/-- The prefix `\fbox` followed by an opening brace. -/
def fbBrace : List Char := ['\\', 'f', 'b', 'o', 'x', '\x7b']

/-- Helper for `rfindIdx`: scan the list keeping the rightmost match.
`i` is the absolute index of the head of the current suffix. -/
def rfindAux (pat : List Char) : List Char → Nat → Option Nat
  | [], i => if pat.isEmpty then some i else none
  | c :: rest, i =>
    match rfindAux pat rest (i + 1) with
    | some j => some j
    | none => if pat.isPrefixOf (c :: rest) then some i else none

/-- Python `string.rfind(pat)`: index of the last occurrence of `pat`,
`none` standing for the sentinel `-1`. -/
def rfindIdx (pat s : List Char) : Option Nat := rfindAux pat s 0

/-- Python substring containment `pat in s`. -/
def containsSub (pat : List Char) : List Char → Bool
  | [] => pat.isEmpty
  | c :: rest => pat.isPrefixOf (c :: rest) || containsSub pat rest

/-- Python `s.endswith(c)` for a one-character suffix. -/
def endsWith1 (c : Char) (s : List Char) : Bool :=
  match s.getLast? with
  | some d => d = c
  | none => false

/-- The brace-depth `while` loop of `last_boxed_only_string`.  `n` is
`num_left_braces_open`, `i` the absolute index of the head of the remaining
text; the result is `right_brace_idx`.  Faithful to the source: the counter
is incremented on every opening brace and decremented on every closing
brace (including closing braces seen before any opening one), and the loop
breaks at the first closing brace that takes the counter to exactly 0. -/
def scanLoop (n : Int) (i : Nat) : List Char → Option Nat
  | [] => none
  | c :: rest =>
    let n1 := if c = '\x7b' then n + 1 else n
    if c = '\x7d' then
      if n1 - 1 = 0 then some i else scanLoop (n1 - 1) (i + 1) rest
    else scanLoop n1 (i + 1) rest

/-- The scan-and-slice part of `last_boxed_only_string`, starting from the
marker index `idx`: run the brace loop and return `string[idx :
right_brace_idx + 1]`. -/
def boxedScan (s : List Char) (idx : Nat) : Option (List Char) :=
  match scanLoop 0 idx (s.drop idx) with
  | none => none
  | some ri => some ((s.drop idx).take (ri + 1 - idx))

/-- Function `last_boxed_only_string` from the source: find the last `\boxed`
(falling back to the last `\fbox`), then match braces forward. -/
def last_boxed_only_string (s : List Char) : Option (List Char) :=
  match rfindIdx bxPat s with
  | some idx => boxedScan s idx
  | none =>
    match rfindIdx fbPat s with
    | some idx => boxedScan s idx
    | none => none

/-- Function `remove_boxed` from the source.  The first branch fires only when the
string both contains `\boxed ` and starts with it (the Python code tests
containment, then the prefix; on a failed prefix test it falls through). -/
def remove_boxed (s : List Char) : Option (List Char) :=
  if containsSub bxSpace s && bxSpace.isPrefixOf s then
    some (s.drop 7)
  else if bxBrace.isPrefixOf s && endsWith1 '\x7d' s then
    some ((s.drop 7).dropLast)
  else if fbBrace.isPrefixOf s && endsWith1 '\x7d' s then
    some ((s.drop 6).dropLast)
  else none

/-- The 12-character literal `he answer is` that follows `[Tt]` in the
first two regex patterns of `extract_answer_from_text`. -/
def phrasePat : List Char := ['h', 'e', ' ', 'a', 'n', 's', 'w', 'e', 'r', ' ', 'i', 's']

/-- The literal `#### ` of the third regex pattern. -/
def hashPat : List Char := ['#', '#', '#', '#', ' ']

/-- Character class `[:\s]` of the separator in the first two patterns. -/
def isSepChar (c : Char) : Bool := c = ':' || isPySpace c

/-- Matcher for the regex tail `([^\n]+?)\.?$` once at least one group
character (`accRev`, reversed) has been read: the lazy group stops as soon
as the rest of the input is empty or a single dot (the greedy `\.?` then
eats the dot and `$` holds); otherwise the group is extended, failing on a
newline. -/
def lazyCont (accRev : List Char) : List Char → Option (List Char)
  | [] => some accRev.reverse
  | ['.'] => some accRev.reverse
  | c :: rest => if c = '\n' then none else lazyCont (c :: accRev) rest

/-- Matcher for `([^\n]+?)\.?$` against the whole remaining input (used by
patterns 1 and 3, whose tails are identical). -/
def pat1Tail : List Char → Option (List Char)
  | [] => none
  | c :: rest => if c = '\n' then none else lazyCont [c] rest

/-- Greedy `[:\s]+` continuation for pattern 1, one separator character
already consumed: consume further separators greedily, handing back one at
a time on failure of the tail `([^\n]+?)\.?$`. -/
def sepPlusP1 : List Char → Option (List Char)
  | [] => pat1Tail []
  | c :: rest =>
    if isSepChar c then
      match sepPlusP1 rest with
      | some g => some g
      | none => pat1Tail (c :: rest)
    else pat1Tail (c :: rest)

/-- Matcher for `[:\s]+([^\n]+?)\.?$`: at least one separator, then the lazy tail. -/
def sepThenP1 : List Char → Option (List Char)
  | [] => none
  | c :: rest => if c = ':' || isPySpace c then sepPlusP1 rest else none

/-- Search `re.search` of pattern 1, `[Tt]he answer is[:\s]+([^\n]+?)\.?$`:
leftmost start position wins, later positions are tried when the tail
fails. Returns group 1. -/
def searchPat1 : List Char → Option (List Char)
  | [] => none
  | c :: rest =>
    if (c = 'T' || c = 't') && phrasePat.isPrefixOf rest then
      match sepThenP1 (rest.drop 12) with
      | some g => some g
      | none => searchPat1 rest
    else searchPat1 rest

/-- Tail `([^\n]+)` of pattern 2: a greedy, nonempty run of non-newline
characters. -/
def pat2Tail (l : List Char) : Option (List Char) :=
  let g := l.takeWhile (fun c => !(c = '\n'))
  if g.isEmpty then none else some g

/-- Greedy `[:\s]+` continuation for pattern 2. -/
def sepPlusP2 : List Char → Option (List Char)
  | [] => pat2Tail []
  | c :: rest =>
    if isSepChar c then
      match sepPlusP2 rest with
      | some g => some g
      | none => pat2Tail (c :: rest)
    else pat2Tail (c :: rest)

/-- Matcher for `[:\s]+([^\n]+)` of pattern 2. -/
def sepThenP2 : List Char → Option (List Char)
  | [] => none
  | c :: rest => if c = ':' || isPySpace c then sepPlusP2 rest else none

/-- Search `re.search` of pattern 2, `[Tt]he answer is[:\s]+([^\n]+)`. -/
def searchPat2 : List Char → Option (List Char)
  | [] => none
  | c :: rest =>
    if (c = 'T' || c = 't') && phrasePat.isPrefixOf rest then
      match sepThenP2 (rest.drop 12) with
      | some g => some g
      | none => searchPat2 rest
    else searchPat2 rest

/-- Search `re.search` of pattern 3, `#### ([^\n]+?)\.?$` (note: no line-start
anchor; the literal may match mid-line). -/
def searchPat3 : List Char → Option (List Char)
  | [] => none
  | c :: rest =>
    if hashPat.isPrefixOf (c :: rest) then
      match pat1Tail ((c :: rest).drop 5) with
      | some g => some g
      | none => searchPat3 rest
    else searchPat3 rest

/-- Per-pattern post-processing in `extract_answer_from_text`:
`answer = match.group(1).strip(); answer = answer.rstrip('.')`, succeeding
only when the result is non-empty. -/
def groupAnswer (g : List Char) : Option (List Char) :=
  let a := rstripDots (pyStrip g)
  if a.isEmpty then none else some a

/-- Function `extract_answer_from_text` from the source: try the three patterns in
order against `text.strip()`; a pattern whose post-processed answer is
empty falls through to the next pattern. -/
def extract_answer_from_text (text : List Char) : Option (List Char) :=
  if text.isEmpty then none
  else
    let t := pyStrip text
    match (searchPat1 t).bind groupAnswer with
    | some a => some a
    | none =>
      match (searchPat2 t).bind groupAnswer with
      | some a => some a
      | none => (searchPat3 t).bind groupAnswer

/-- Stage 1 of the metamath/mumath `extract_answer`: the phrase extractor;
on a truthy result the orchestrator returns `ans.strip()`. -/
def stagePhrase (text : List Char) : Option (List Char) :=
  match extract_answer_from_text text with
  | some ans => if ans.isEmpty then none else some (pyStrip ans)
  | none => none

/-- The boxed stage shared by all three scripts:
`last_boxed_only_string` composed with `remove_boxed`, then
`ans = str(ans).strip()`, succeeding only when non-empty. -/
def stageBoxed (text : List Char) : Option (List Char) :=
  match (last_boxed_only_string text).bind remove_boxed with
  | some a => if (pyStrip a).isEmpty then none else some (pyStrip a)
  | none => none

/-- The symbolic fallback stage: the external `math_verify.parse`
collaborator is abstracted as `sym`; its result is stripped and must be
non-empty. -/
def stageSym (sym : List Char → Option (List Char)) (text : List Char) :
    Option (List Char) :=
  match sym text with
  | some p => if (pyStrip p).isEmpty then none else some (pyStrip p)
  | none => none

/-- A `sym` oracle modelling the collaborator being unavailable
(`MATH_VERIFY_AVAILABLE = False`): the stage is skipped. -/
def noSym : List Char → Option (List Char) := fun _ => none

/-- Function `extract_answer` of `create_gsm8k_metamath.py` (and, identically, of
`create_gsm8k_mumath.py`): empty guard, then phrase stage, boxed stage,
symbolic stage, empty-string sentinel. -/
def extract_answer_metamath (sym : List Char → Option (List Char))
    (text : List Char) : List Char :=
  if text.isEmpty then []
  else
    match stagePhrase text with
    | some a => a
    | none =>
      match stageBoxed text with
      | some a => a
      | none =>
        match stageSym sym text with
        | some a => a
        | none => []

/-- Function `extract_answer` of `create_gsm8k_mugglemath.py`: empty guard, then
boxed stage, symbolic stage, empty-string sentinel.  There is no phrase
stage in this script. -/
def extract_answer_mugglemath (sym : List Char → Option (List Char))
    (text : List Char) : List Char :=
  if text.isEmpty then []
  else
    match stageBoxed text with
    | some a => a
    | none =>
      match stageSym sym text with
      | some a => a
      | none => []

/-- One step of the brace counter: `+1` on an opening brace, `-1` on a
closing one. -/
def brStep (c : Int) (ch : Char) : Int :=
  if ch = '\x7b' then c + 1 else if ch = '\x7d' then c - 1 else c

/-- Running check that a brace group body is well formed relative to an
accumulated depth `c`: every intermediate depth stays non-negative and the
final depth is 0. -/
def goBr (c : Int) : List Char → Bool
  | [] => decide (c = 0)
  | ch :: rest => (decide (0 ≤ brStep c ch)) && goBr (brStep c ch) rest

/-- A brace-balanced group body: depth never dips below its entry value
and returns to it exactly at the end. -/
def bracedOk (X : List Char) : Bool := goBr 0 X

/-- A list with no brace characters at all. -/
def braceFree (l : List Char) : Bool :=
  l.all (fun c => !(c = '\x7b' || c = '\x7d'))

/-! ### List prefix and substring lemmas -/

/-- A prefix of an append either lies inside the left part or covers all
of it and continues into the right part. -/
theorem pre_append_cases {pat u v : List Char} (h : pat <+: u ++ v) :
    pat <+: u ∨ (u <+: pat ∧ pat.drop u.length <+: v) := by
  obtain ⟨t, ht⟩ := h
  rcases List.append_eq_append_iff.mp ht with ⟨a, ha, _⟩ | ⟨c, hc, hv⟩
  · exact Or.inl ⟨a, ha.symm⟩
  · subst hc
    refine Or.inr ⟨⟨c, rfl⟩, ?_⟩
    rw [List.drop_left]
    exact ⟨t, hv.symm⟩

/-- Substring containment as the existence of a suffix with the pattern as
prefix. -/
theorem sub_iff (pat : List Char) : ∀ l : List Char,
    containsSub pat l = true ↔ ∃ j, pat <+: l.drop j := by
  intro l
  induction l with
  | nil =>
    simp only [containsSub, List.isEmpty_iff, List.drop_nil]
    constructor
    · rintro rfl; exact ⟨0, List.nil_prefix⟩
    · rintro ⟨j, hj⟩; exact List.prefix_nil.mp hj
  | cons c rest ih =>
    simp only [containsSub, Bool.or_eq_true, List.isPrefixOf_iff_prefix, ih]
    constructor
    · rintro (h | ⟨j, hj⟩)
      · exact ⟨0, h⟩
      · exact ⟨j + 1, by simpa using hj⟩
    · rintro ⟨j, hj⟩
      cases j with
      | zero => exact Or.inl (by simpa using hj)
      | succ j => exact Or.inr ⟨j, by simpa using hj⟩

/-- Substring containment survives appending on the right. -/
theorem sub_append_right {pat u : List Char} (v : List Char)
    (h : containsSub pat u = true) : containsSub pat (u ++ v) = true := by
  rcases (sub_iff pat u).mp h with ⟨j, hj⟩
  rcases Nat.le_total j u.length with hle | hge
  · refine (sub_iff pat (u ++ v)).mpr ⟨j, ?_⟩
    rw [List.drop_append_of_le_length hle]
    exact hj.trans (List.prefix_append _ _)
  · rw [List.drop_eq_nil_of_le hge] at hj
    have : pat = [] := List.prefix_nil.mp hj
    subst this
    exact (sub_iff [] (u ++ v)).mpr ⟨0, List.nil_prefix⟩

/-- Substring containment survives appending on the left. -/
theorem sub_append_left {pat v : List Char} (u : List Char)
    (h : containsSub pat v = true) : containsSub pat (u ++ v) = true := by
  rcases (sub_iff pat v).mp h with ⟨j, hj⟩
  refine (sub_iff pat (u ++ v)).mpr ⟨u.length + j, ?_⟩
  rw [List.drop_append]
  exact hj

/-- Substring containment transfers from a `drop` to the whole list. -/
theorem sub_drop {pat l : List Char} {k : Nat}
    (h : containsSub pat (l.drop k) = true) : containsSub pat l = true := by
  rcases (sub_iff pat (l.drop k)).mp h with ⟨j, hj⟩
  rw [List.drop_drop] at hj
  exact (sub_iff pat l).mpr ⟨k + j, hj⟩

/-- Applying `trimRight` leaves a prefix of the list: the removed whitespace is a
recoverable suffix. -/
theorem trimRight_decomp (v : List Char) :
    trimRight v ++ (v.reverse.takeWhile isPySpace).reverse = v := by
  unfold trimRight
  rw [← List.reverse_append, List.takeWhile_append_dropWhile, List.reverse_reverse]

/-- Applying `pyStrip` yields an infix of the original list. -/
theorem sub_strip {pat l : List Char}
    (h : containsSub pat (pyStrip l) = true) : containsSub pat l = true := by
  have h2 : containsSub pat (l.dropWhile isPySpace) = true := by
    have := trimRight_decomp (l.dropWhile isPySpace)
    calc containsSub pat (l.dropWhile isPySpace)
        = containsSub pat (pyStrip l ++
            ((l.dropWhile isPySpace).reverse.takeWhile isPySpace).reverse) := by
          rw [pyStrip]; rw [this]
      _ = true := sub_append_right _ h
  have h3 := sub_append_left (l.takeWhile isPySpace) h2
  rwa [List.takeWhile_append_dropWhile] at h3

/-! ### rfind lemmas -/

/-- If the pattern occurs nowhere, the scan of `rfind` returns nothing. -/
theorem rfindAux_none {pat : List Char} : ∀ (l : List Char) (i : Nat),
    (∀ j, ¬ pat <+: l.drop j) → rfindAux pat l i = none := by
  intro l
  induction l with
  | nil =>
    intro i h
    have h0 := h 0
    simp only [List.drop_nil] at h0
    have hne : pat.isEmpty = false := by
      cases pat with
      | nil => exact absurd List.nil_prefix h0
      | cons a as => rfl
    simp [rfindAux, hne]
  | cons c rest ih =>
    intro i h
    have hrec := ih (i + 1) (fun j => by simpa using h (j + 1))
    have hg : pat.isPrefixOf (c :: rest) = false := by
      rw [← Bool.not_eq_true, List.isPrefixOf_iff_prefix]
      simpa using h 0
    simp [rfindAux, hrec, hg]

/-- The function `rfindAux` returns the position of an occurrence to the right of which
there is no other occurrence. -/
theorem rfindAux_last {pat : List Char} : ∀ (l : List Char) (m i : Nat),
    pat <+: l.drop m → (∀ j, m < j → ¬ pat <+: l.drop j) →
    rfindAux pat l i = some (i + m) := by
  intro l
  induction l with
  | nil =>
    intro m i hm h
    exfalso
    simp only [List.drop_nil] at hm
    exact h (m + 1) (Nat.lt_succ_self m) (by simpa using hm)
  | cons c rest ih =>
    intro m i hm h
    cases m with
    | zero =>
      have hrec : rfindAux pat rest (i + 1) = none :=
        rfindAux_none rest (i + 1)
          (fun j => by simpa using h (j + 1) (Nat.succ_pos j))
      have hg : pat.isPrefixOf (c :: rest) = true := by
        rw [ List.isPrefixOf_iff_prefix]
        simpa using hm
      simp [rfindAux, hrec, hg]
    | succ m' =>
      have hm' : pat <+: rest.drop m' := by simpa using hm
      have h' : ∀ j, m' < j → ¬ pat <+: rest.drop j := by
        intro j hj
        simpa using h (j + 1) (Nat.succ_lt_succ hj)
      have hrec := ih m' (i + 1) hm' h'
      have harith : i + 1 + m' = i + (m' + 1) := by omega
      simp [rfindAux, hrec, harith]

/-! ### Brace-scan lemmas -/

/-- The scan passes over brace-free text without changing the counter. -/
theorem scan_skip : ∀ (u : List Char) (n : Int) (i : Nat) (rest : List Char),
    braceFree u = true →
    scanLoop n i (u ++ rest) = scanLoop n (i + u.length) rest := by
  intro u
  induction u with
  | nil => intro n i rest _; simp
  | cons c u' ih =>
    intro n i rest h
    simp only [braceFree, List.all_cons, Bool.and_eq_true, Bool.not_eq_true',
      Bool.or_eq_false_iff, decide_eq_false_iff_not] at h
    obtain ⟨⟨h1, h2⟩, h3⟩ := h
    have ih' := ih n (i + 1) rest (by simpa [braceFree] using h3)
    simp only [List.cons_append, scanLoop, if_neg h1, if_neg h2, ih',
      List.length_cons]
    rw [show i + (u'.length + 1) = i + 1 + u'.length by omega]
    exact ih'

/-- The scan passes over a well-formed brace-group body without the counter
ever reaching zero at a closing brace, ending with the counter unchanged. -/
theorem scan_app : ∀ (X : List Char) (c : Int) (n : Int) (i : Nat)
    (rest : List Char), goBr c X = true → 0 < n →
    scanLoop (n + c) i (X ++ rest) = scanLoop n (i + X.length) rest := by
  intro X
  induction X with
  | nil =>
    intro c n i rest hg hn
    simp only [goBr, decide_eq_true_eq] at hg
    subst hg
    simp
  | cons ch X' ih =>
    intro c n i rest hg hn
    simp only [goBr, Bool.and_eq_true, decide_eq_true_eq] at hg
    obtain ⟨hnn, hg'⟩ := hg
    have harith : i + (X'.length + 1) = i + 1 + X'.length := by omega
    by_cases hob : ch = '\x7b'
    · subst hob
      have hstep : brStep c '\x7b' = c + 1 := by simp [brStep]
      rw [hstep] at hnn hg'
      simp only [List.cons_append, scanLoop, if_pos rfl]
      rw [if_neg (by decide : ¬('\x7b' = '\x7d'))]
      have hres := ih (c + 1) n (i + 1) rest hg' hn
      rw [show n + c + 1 = n + (c + 1) by omega]
      simp only [List.length_cons, harith]
      exact hres
    · by_cases hcb : ch = '\x7d'
      · subst hcb
        have hstep : brStep c '\x7d' = c - 1 := by simp [brStep]
        rw [hstep] at hnn hg'
        simp only [List.cons_append, scanLoop,
          if_neg (by decide : ¬('\x7d' = '\x7b')), if_pos rfl]
        rw [if_neg (by omega : ¬(n + c - 1 = 0))]
        have hres := ih (c - 1) n (i + 1) rest hg' hn
        rw [show n + c - 1 = n + (c - 1) by omega]
        simp only [List.length_cons, harith]
        exact hres
      · have hstep : brStep c ch = c := by simp [brStep, hob, hcb]
        rw [hstep] at hnn hg'
        simp only [List.cons_append, scanLoop, if_neg hob, if_neg hcb]
        have hres := ih c n (i + 1) rest hg' hn
        simp only [List.length_cons, harith]
        exact hres

/-- With a non-positive counter and no opening brace ahead, the scan never
breaks: the counter only ever decreases below zero. -/
theorem scan_noOpen : ∀ (l : List Char) (n : Int) (i : Nat), n ≤ 0 →
    l.all (fun c => !(c = '\x7b')) = true → scanLoop n i l = none := by
  intro l
  induction l with
  | nil => intro n i _ _; rfl
  | cons c rest ih =>
    intro n i hn h
    simp only [List.all_cons, Bool.and_eq_true, Bool.not_eq_true',
      decide_eq_false_iff_not] at h
    obtain ⟨h1, h2⟩ := h
    by_cases hcb : c = '\x7d'
    · subst hcb
      simp only [scanLoop, if_neg h1, if_pos rfl]
      rw [if_neg (by omega : ¬(n - 1 = 0))]
      exact ih (n - 1) (i + 1) (by omega) (by simpa using h2)
    · simp only [scanLoop, if_neg h1, if_neg hcb]
      exact ih n (i + 1) hn (by simpa using h2)

/-- Single scan step on an opening brace. -/
theorem scan_open (n : Int) (i : Nat) (l : List Char) :
    scanLoop n i ('\x7b' :: l) = scanLoop (n + 1) (i + 1) l := by
  rw [scanLoop]
  simp

/-- Single scan step on a closing brace with counter exactly one: break. -/
theorem scan_close_zero (n : Int) (i : Nat) (l : List Char) (h : n = 1) :
    scanLoop n i ('\x7d' :: l) = some i := by
  subst h
  rw [scanLoop]
  simp

/-- Single scan step on a closing brace whose decrement misses zero. -/
theorem scan_close_cont (n : Int) (i : Nat) (l : List Char)
    (h : ¬(n - 1 = 0)) : scanLoop n i ('\x7d' :: l) = scanLoop (n - 1) (i + 1) l := by
  rw [scanLoop]
  simp [h]

/-! ### Prefix-divergence and span-extraction helpers -/

/-- Two lists that agree on a common prefix and then diverge: the first is
not a Boolean prefix of the second. -/
theorem not_pre_diverge {a b : Char} (hab : a ≠ b) :
    ∀ (u p' l' : List Char), (u ++ a :: p').isPrefixOf (u ++ b :: l') = false := by
  intro u
  induction u with
  | nil =>
    intro p' l'
    simp only [List.nil_append, List.isPrefixOf]
    simp [hab]
  | cons c u' ih =>
    intro p' l'
    simp only [List.cons_append, List.isPrefixOf, beq_self_eq_true,
      Bool.true_and]
    exact ih p' l'

/-- Evaluation of `remove_boxed` on a span of the shape
`\boxed{` ++ X ++ `}`. -/
theorem remove_boxed_braced (X : List Char) :
    remove_boxed (bxBrace ++ (X ++ ['\x7d'])) = some X := by
  have hsp : bxSpace.isPrefixOf (bxBrace ++ (X ++ ['\x7d'])) = false := by
    have h1 : bxSpace = bxPat ++ ' ' :: [] := rfl
    rw [h1, show bxBrace ++ (X ++ ['\x7d']) = bxPat ++ '\x7b' :: (X ++ ['\x7d']) by
      simp [bxBrace, bxPat]]
    exact not_pre_diverge (by decide) bxPat [] (X ++ ['\x7d'])
  have hbr : bxBrace.isPrefixOf (bxBrace ++ (X ++ ['\x7d'])) = true := by
    rw [ List.isPrefixOf_iff_prefix]
    exact List.prefix_append _ _
  have hend : endsWith1 '\x7d' (bxBrace ++ (X ++ ['\x7d'])) = true := by
    rw [endsWith1, show bxBrace ++ (X ++ ['\x7d']) = (bxBrace ++ X) ++ ['\x7d'] by
      simp]
    rw [List.getLast?_concat]
    simp
  rw [remove_boxed, hsp]
  simp only [Bool.and_false, Bool.false_eq_true, if_false, hbr, hend,
    Bool.and_self, if_true]
  rw [List.drop_left' (by rfl : bxBrace.length = 7)]
  rw [List.dropLast_concat]

/-- Evaluation of `remove_boxed` on a span of the shape
`\fbox{` ++ X ++ `}`. -/
theorem remove_boxed_fbox (X : List Char) :
    remove_boxed (fbBrace ++ (X ++ ['\x7d'])) = some X := by
  have hsp : bxSpace.isPrefixOf (fbBrace ++ (X ++ ['\x7d'])) = false := by
    have h1 : bxSpace = ['\\'] ++ 'b' :: ['o', 'x', 'e', 'd', ' '] := rfl
    have h2 : fbBrace ++ (X ++ ['\x7d']) =
        ['\\'] ++ 'f' :: (['b', 'o', 'x', '\x7b'] ++ (X ++ ['\x7d'])) := by
      simp [fbBrace]
    rw [h1, h2]
    exact not_pre_diverge (by decide) ['\\'] _ _
  have hbr : bxBrace.isPrefixOf (fbBrace ++ (X ++ ['\x7d'])) = false := by
    have h1 : bxBrace = ['\\'] ++ 'b' :: ['o', 'x', 'e', 'd', '\x7b'] := rfl
    have h2 : fbBrace ++ (X ++ ['\x7d']) =
        ['\\'] ++ 'f' :: (['b', 'o', 'x', '\x7b'] ++ (X ++ ['\x7d'])) := by
      simp [fbBrace]
    rw [h1, h2]
    exact not_pre_diverge (by decide) ['\\'] _ _
  have hfb : fbBrace.isPrefixOf (fbBrace ++ (X ++ ['\x7d'])) = true := by
    rw [ List.isPrefixOf_iff_prefix]
    exact List.prefix_append _ _
  have hend : endsWith1 '\x7d' (fbBrace ++ (X ++ ['\x7d'])) = true := by
    rw [endsWith1, show fbBrace ++ (X ++ ['\x7d']) = (fbBrace ++ X) ++ ['\x7d'] by
      simp]
    rw [List.getLast?_concat]
    simp
  rw [remove_boxed, hsp]
  simp only [Bool.and_false, Bool.false_eq_true, if_false, hbr,
    Bool.false_and, hfb, hend, Bool.and_self, if_true]
  rw [List.drop_left' (by rfl : fbBrace.length = 6)]
  rw [List.dropLast_concat]

/-- The scan, started at a `\boxed{` marker followed by a well-formed group
body, stops exactly at the matching closing brace. -/
theorem scan_boxed_group (X q : List Char) (k : Nat) (hX : bracedOk X = true) :
    scanLoop 0 k (bxBrace ++ X ++ '\x7d' :: q) = some (k + 7 + X.length) := by
  have hassoc : bxBrace ++ X ++ '\x7d' :: q =
      bxPat ++ ('\x7b' :: (X ++ '\x7d' :: q)) := by
    simp [bxBrace, bxPat]
  rw [hassoc, scan_skip bxPat 0 k _ (by decide)]
  rw [show k + bxPat.length = k + 6 from rfl]
  rw [scan_open]
  rw [show (0 : Int) + 1 = 1 by omega]
  have happ := scan_app X 0 1 (k + 6 + 1) ('\x7d' :: q) hX (by omega)
  rw [show (1 : Int) + 0 = 1 by omega] at happ
  rw [happ]
  rw [scan_close_zero _ _ _ rfl]

/-- The scan, started at a `\fbox{` marker followed by a well-formed group
body, stops exactly at the matching closing brace. -/
theorem scan_fbox_group (X q : List Char) (k : Nat) (hX : bracedOk X = true) :
    scanLoop 0 k (fbBrace ++ X ++ '\x7d' :: q) = some (k + 6 + X.length) := by
  have hassoc : fbBrace ++ X ++ '\x7d' :: q =
      fbPat ++ ('\x7b' :: (X ++ '\x7d' :: q)) := by
    simp [fbBrace, fbPat]
  rw [hassoc, scan_skip fbPat 0 k _ (by decide)]
  rw [show k + fbPat.length = k + 5 from rfl]
  rw [scan_open]
  rw [show (0 : Int) + 1 = 1 by omega]
  have happ := scan_app X 0 1 (k + 5 + 1) ('\x7d' :: q) hX (by omega)
  rw [show (1 : Int) + 0 = 1 by omega] at happ
  rw [happ]
  rw [scan_close_zero _ _ _ rfl]

/-- Full boxed-stage extraction: when the last `\boxed` marker of the text
sits at index `k` and is immediately followed by a well-formed brace group
with body `X`, the composition of `last_boxed_only_string` and
`remove_boxed` yields exactly `X`. -/
theorem boxed_span_helper {s X q : List Char} {k : Nat}
    (hf : rfindIdx bxPat s = some k)
    (hd : s.drop k = bxBrace ++ X ++ '\x7d' :: q)
    (hX : bracedOk X = true) :
    (last_boxed_only_string s).bind remove_boxed = some X := by
  have hscan : scanLoop 0 k (s.drop k) = some (k + 7 + X.length) := by
    rw [hd]; exact scan_boxed_group X q k hX
  have hspan : (s.drop k).take (k + 7 + X.length + 1 - k) =
      bxBrace ++ (X ++ ['\x7d']) := by
    rw [hd]
    have h8 : k + 7 + X.length + 1 - k = bxBrace.length + (X.length + 1) := by
      simp [bxBrace]; omega
    rw [h8, List.append_assoc, List.take_append]
    congr 1
    have hq : X ++ '\x7d' :: q = (X ++ ['\x7d']) ++ q := by simp
    rw [hq, List.take_left' (by simp)]
  rw [last_boxed_only_string, hf]
  simp only [boxedScan, hscan, Option.some_bind]
  rw [hspan]
  exact remove_boxed_braced X

/-- Full fbox-stage extraction: when `\boxed` occurs nowhere, the last
`\fbox` marker sits at index `k`, and it is immediately followed by a
well-formed brace group with body `X`, the composed extraction yields
exactly `X`. -/
theorem fbox_span_helper {s X q : List Char} {k : Nat}
    (hnb : rfindIdx bxPat s = none)
    (hf : rfindIdx fbPat s = some k)
    (hd : s.drop k = fbBrace ++ X ++ '\x7d' :: q)
    (hX : bracedOk X = true) :
    (last_boxed_only_string s).bind remove_boxed = some X := by
  have hscan : scanLoop 0 k (s.drop k) = some (k + 6 + X.length) := by
    rw [hd]; exact scan_fbox_group X q k hX
  have hspan : (s.drop k).take (k + 6 + X.length + 1 - k) =
      fbBrace ++ (X ++ ['\x7d']) := by
    rw [hd]
    have h7 : k + 6 + X.length + 1 - k = fbBrace.length + (X.length + 1) := by
      simp [fbBrace]; omega
    rw [h7, List.append_assoc, List.take_append]
    congr 1
    have hq : X ++ '\x7d' :: q = (X ++ ['\x7d']) ++ q := by simp
    rw [hq, List.take_left' (by simp)]
  rw [last_boxed_only_string, hnb, hf]
  simp only [boxedScan, hscan, Option.some_bind]
  rw [hspan]
  exact remove_boxed_fbox X

/-! ### Strip and trim lemmas -/

/-- The head of a `dropWhile` output fails the predicate. -/
theorem dw_head_false {P : Char → Bool} :
    ∀ (l : List Char) {c : Char} {rest : List Char},
    l.dropWhile P = c :: rest → P c = false := by
  intro l
  induction l with
  | nil => intro c rest h; simp at h
  | cons a l' ih =>
    intro c rest h
    by_cases hp : P a
    · rw [List.dropWhile_cons_of_pos hp] at h
      exact ih h
    · rw [List.dropWhile_cons_of_neg hp] at h
      cases h
      simpa using hp

/-- Applying `rstripDots` leaves a prefix of the list. -/
theorem rstrip_decomp (v : List Char) :
    rstripDots v ++ (v.reverse.takeWhile (fun c => c = '.')).reverse = v := by
  unfold rstripDots
  rw [← List.reverse_append, List.takeWhile_append_dropWhile, List.reverse_reverse]

/-- The head of a post-processed group answer is not whitespace. -/
theorem strip_rstrip_head {g : List Char} {c : Char} {r : List Char}
    (h : rstripDots (pyStrip g) = c :: r) : isPySpace c = false := by
  have h1 := rstrip_decomp (pyStrip g)
  rw [h] at h1
  have h2 := trimRight_decomp ((g.dropWhile isPySpace))
  rw [show trimRight (g.dropWhile isPySpace) = pyStrip g from rfl, ← h1] at h2
  simp only [List.cons_append, List.append_assoc] at h2
  exact dw_head_false g h2.symm

/-- A successful `groupAnswer` has a non-whitespace head character. -/
theorem groupAnswer_head {g a : List Char} (h : groupAnswer g = some a) :
    ∃ c r, a = c :: r ∧ isPySpace c = false := by
  rw [groupAnswer] at h
  by_cases he : (rstripDots (pyStrip g)).isEmpty
  · simp [he] at h
  · simp only [he, Bool.false_eq_true, if_false, Option.some.injEq] at h
    subst h
    rcases hl : rstripDots (pyStrip g) with _ | ⟨c, r⟩
    · rw [hl] at he; simp at he
    · exact ⟨c, r, rfl, strip_rstrip_head hl⟩

/-- A successful `extract_answer_from_text` has a non-whitespace head. -/
theorem eaft_shape {t a : List Char} (h : extract_answer_from_text t = some a) :
    ∃ c r, a = c :: r ∧ isPySpace c = false := by
  rw [extract_answer_from_text] at h
  by_cases he : t.isEmpty
  · simp [he] at h
  · simp only [he, Bool.false_eq_true, if_false] at h
    rcases h1 : (searchPat1 (pyStrip t)).bind groupAnswer with _ | a1
    · rw [h1] at h
      rcases h2 : (searchPat2 (pyStrip t)).bind groupAnswer with _ | a2
      · rw [h2] at h
        rcases Option.bind_eq_some.mp h with ⟨g, _, hg⟩
        exact groupAnswer_head hg
      · rw [h2] at h
        cases h
        rcases Option.bind_eq_some.mp h2 with ⟨g, _, hg⟩
        exact groupAnswer_head hg
    · rw [h1] at h
      cases h
      rcases Option.bind_eq_some.mp h1 with ⟨g, _, hg⟩
      exact groupAnswer_head hg

/-- Applying `pyStrip` to a list with non-whitespace head is non-empty. -/
theorem pyStrip_cons_ne {c : Char} (r : List Char) (hc : isPySpace c = false) :
    pyStrip (c :: r) ≠ [] := by
  intro hnil
  rw [pyStrip, List.dropWhile_cons_of_neg (by simp [hc])] at hnil
  rw [trimRight] at hnil
  have h2 : (c :: r).reverse.dropWhile isPySpace = [] := by
    have := congrArg List.reverse hnil
    simpa using this
  have h3 := List.dropWhile_eq_nil_iff.mp h2 c (by simp)
  rw [hc] at h3
  exact absurd h3 (by simp)

/-- The function `pyStrip` is idempotent. -/
theorem pyStrip_idem (x : List Char) : pyStrip (pyStrip x) = pyStrip x := by
  have hdecomp : pyStrip x ++
      ((x.dropWhile isPySpace).reverse.takeWhile isPySpace).reverse
      = x.dropWhile isPySpace := trimRight_decomp (x.dropWhile isPySpace)
  have hA : (pyStrip x).dropWhile isPySpace = pyStrip x := by
    rcases hu : pyStrip x with _ | ⟨c, r⟩
    · simp
    · rw [hu] at hdecomp
      have hvu := hdecomp.symm
      rw [List.cons_append] at hvu
      have hc := dw_head_false x hvu
      rw [List.dropWhile_cons_of_neg (by simp [hc])]
  have hB : trimRight (pyStrip x) = pyStrip x := by
    have hrev : (pyStrip x).reverse =
        (x.dropWhile isPySpace).reverse.dropWhile isPySpace := by
      show (trimRight (x.dropWhile isPySpace)).reverse = _
      rw [trimRight, List.reverse_reverse]
    rcases hw : (pyStrip x).reverse with _ | ⟨d, s⟩
    · have hnil : pyStrip x = [] := by
        have h5 := congrArg List.reverse hw
        simpa using h5
      rw [hnil]
      rfl
    · have hw2 : (x.dropWhile isPySpace).reverse.dropWhile isPySpace = d :: s := by
        rw [← hrev]
        exact hw
      have hd : isPySpace d = false := dw_head_false _ hw2
      rw [trimRight, hw, List.dropWhile_cons_of_neg (by simp [hd]), ← hw,
        List.reverse_reverse]
  calc pyStrip (pyStrip x) = trimRight ((pyStrip x).dropWhile isPySpace) := rfl
    _ = trimRight (pyStrip x) := by rw [hA]
    _ = pyStrip x := hB

/-- A successful phrase stage yields a non-empty answer. -/
theorem stagePhrase_some_ne {t a : List Char} (h : stagePhrase t = some a) :
    a ≠ [] := by
  rw [stagePhrase] at h
  rcases he : extract_answer_from_text t with _ | ans
  · rw [he] at h; cases h
  · rw [he] at h
    by_cases hne : ans.isEmpty
    · simp [hne] at h
    · simp only [hne, Bool.false_eq_true, if_false, Option.some.injEq] at h
      subst h
      rcases eaft_shape he with ⟨c, r, rfl, hc⟩
      exact pyStrip_cons_ne r hc

/-- A successful phrase stage yields a whitespace-trimmed answer. -/
theorem stagePhrase_some_trim {t a : List Char} (h : stagePhrase t = some a) :
    pyStrip a = a := by
  rw [stagePhrase] at h
  rcases he : extract_answer_from_text t with _ | ans
  · rw [he] at h; cases h
  · rw [he] at h
    by_cases hne : ans.isEmpty
    · simp [hne] at h
    · simp only [hne, Bool.false_eq_true, if_false, Option.some.injEq] at h
      subst h
      exact pyStrip_idem ans

/-- A successful boxed stage yields a non-empty answer. -/
theorem stageBoxed_some_ne {t a : List Char} (h : stageBoxed t = some a) :
    a ≠ [] := by
  rw [stageBoxed] at h
  rcases hb : (last_boxed_only_string t).bind remove_boxed with _ | y
  · rw [hb] at h; cases h
  · rw [hb] at h
    by_cases hne : (pyStrip y).isEmpty
    · simp [hne] at h
    · simp only [hne, Bool.false_eq_true, if_false, Option.some.injEq] at h
      subst h
      simpa using hne

/-- A successful boxed stage yields a whitespace-trimmed answer. -/
theorem stageBoxed_some_trim {t a : List Char} (h : stageBoxed t = some a) :
    pyStrip a = a := by
  rw [stageBoxed] at h
  rcases hb : (last_boxed_only_string t).bind remove_boxed with _ | y
  · rw [hb] at h; cases h
  · rw [hb] at h
    by_cases hne : (pyStrip y).isEmpty
    · simp [hne] at h
    · simp only [hne, Bool.false_eq_true, if_false, Option.some.injEq] at h
      subst h
      exact pyStrip_idem y

/-- A successful symbolic stage yields a non-empty answer. -/
theorem stageSym_some_ne {sym : List Char → Option (List Char)}
    {t a : List Char} (h : stageSym sym t = some a) : a ≠ [] := by
  rw [stageSym] at h
  rcases hs : sym t with _ | p
  · rw [hs] at h; cases h
  · rw [hs] at h
    by_cases hne : (pyStrip p).isEmpty
    · simp [hne] at h
    · simp only [hne, Bool.false_eq_true, if_false, Option.some.injEq] at h
      subst h
      simpa using hne

/-- A successful symbolic stage yields a whitespace-trimmed answer. -/
theorem stageSym_some_trim {sym : List Char → Option (List Char)}
    {t a : List Char} (h : stageSym sym t = some a) : pyStrip a = a := by
  rw [stageSym] at h
  rcases hs : sym t with _ | p
  · rw [hs] at h; cases h
  · rw [hs] at h
    by_cases hne : (pyStrip p).isEmpty
    · simp [hne] at h
    · simp only [hne, Bool.false_eq_true, if_false, Option.some.injEq] at h
      subst h
      exact pyStrip_idem p

/-! ### Regex-search skip lemmas -/

/-- A pattern absent as substring is in particular not a prefix. -/
theorem sub_false_pre {pat l : List Char} (hne : pat ≠ [])
    (h : containsSub pat l = false) : pat.isPrefixOf l = false := by
  cases l with
  | nil =>
    cases pat with
    | nil => exact absurd rfl hne
    | cons a as => rfl
  | cons x xs =>
    rw [containsSub, Bool.or_eq_false_iff] at h
    exact h.1

/-- Substring absence transfers to the tail. -/
theorem sub_false_tail {pat : List Char} {c : Char} {l : List Char}
    (h : containsSub pat (c :: l) = false) : containsSub pat l = false := by
  rw [containsSub, Bool.or_eq_false_iff] at h
  exact h.2

/-- If `he answer is` occurs nowhere, pattern 1 finds nothing. -/
theorem sp1_none : ∀ l : List Char,
    containsSub phrasePat l = false → searchPat1 l = none := by
  intro l
  induction l with
  | nil => intro _; rfl
  | cons c rest ih =>
    intro h
    have hpre : phrasePat.isPrefixOf rest = false :=
      sub_false_pre (by decide) (sub_false_tail h)
    rw [searchPat1, hpre]
    simp only [Bool.and_false, Bool.false_eq_true, if_false]
    exact ih (sub_false_tail h)

/-- If `he answer is` occurs nowhere, pattern 2 finds nothing. -/
theorem sp2_none : ∀ l : List Char,
    containsSub phrasePat l = false → searchPat2 l = none := by
  intro l
  induction l with
  | nil => intro _; rfl
  | cons c rest ih =>
    intro h
    have hpre : phrasePat.isPrefixOf rest = false :=
      sub_false_pre (by decide) (sub_false_tail h)
    rw [searchPat2, hpre]
    simp only [Bool.and_false, Bool.false_eq_true, if_false]
    exact ih (sub_false_tail h)

/-- Pattern 3 skips over a prefix that contains no `#### ` occurrence,
provided no straddling occurrence can begin inside that prefix (expressed
by the hypothesis on the proper pattern suffixes against `tail`). -/
theorem sp3_skip (tail : List Char)
    (hm : ∀ m, 1 ≤ m → m ≤ 4 → (hashPat.drop m).isPrefixOf tail = false) :
    ∀ u : List Char, containsSub hashPat u = false →
    searchPat3 (u ++ tail) = searchPat3 tail := by
  intro u
  induction u with
  | nil => intro _; rfl
  | cons c u' ih =>
    intro h
    have hpre : hashPat.isPrefixOf (c :: u') = false := by
      cases hcs : containsSub hashPat (c :: u')
      · exact sub_false_pre (by decide) hcs
      · rw [hcs] at h; cases h
    have hg : hashPat.isPrefixOf (c :: (u' ++ tail)) = false := by
      rw [← Bool.not_eq_true, List.isPrefixOf_iff_prefix]
      intro hcon
      have hcon' : hashPat <+: (c :: u') ++ tail := by simpa using hcon
      rcases pre_append_cases hcon' with h1 | ⟨h2, h3⟩
      · rw [← List.isPrefixOf_iff_prefix] at h1
        rw [h1] at hpre
        cases hpre
      · have hlen : (c :: u').length ≤ hashPat.length := h2.length_le
        have hlen5 : (c :: u').length ≤ 5 := by simpa [hashPat] using hlen
        by_cases h5 : (c :: u').length = 5
        · have heq : (c :: u') = hashPat :=
            h2.eq_of_length_le (by simp [hashPat, h5])
          rw [heq] at hpre
          rw [show hashPat.isPrefixOf hashPat = true by decide] at hpre
          cases hpre
        · have h1le : 1 ≤ (c :: u').length := by simp
          have h4 : (c :: u').length ≤ 4 := by omega
          have hfm := hm (c :: u').length h1le h4
          rw [← List.isPrefixOf_iff_prefix] at h3
          rw [h3] at hfm
          cases hfm
    rw [List.cons_append, searchPat3, hg]
    simp only [Bool.false_eq_true, if_false]
    exact ih (sub_false_tail h)

/-! ### Orchestrator lemmas -/

/-- The metamath/mumath orchestrator returns the empty sentinel exactly on
empty input or when all three stages fail. -/
theorem meta_empty_iff (sym : List Char → Option (List Char))
    (text : List Char) :
    extract_answer_metamath sym text = [] ↔
      (text = [] ∨ (stagePhrase text = none ∧ stageBoxed text = none ∧
        stageSym sym text = none)) := by
  by_cases ht : text.isEmpty
  · have h0 : text = [] := by simpa using ht
    subst h0
    simp [extract_answer_metamath]
  · have htne : text ≠ [] := by simpa using ht
    rw [extract_answer_metamath, if_neg ht]
    rcases h1 : stagePhrase text with _ | a
    · rcases h2 : stageBoxed text with _ | a
      · rcases h3 : stageSym sym text with _ | a
        · simp [htne]
        · have ha := stageSym_some_ne h3
          simp [htne, ha]
      · have ha := stageBoxed_some_ne h2
        simp [htne, ha]
    · have ha := stagePhrase_some_ne h1
      simp [htne, ha]

/-- The mugglemath orchestrator returns the empty sentinel exactly on empty
input or when its two stages fail. -/
theorem muggle_empty_iff (sym : List Char → Option (List Char))
    (text : List Char) :
    extract_answer_mugglemath sym text = [] ↔
      (text = [] ∨ (stageBoxed text = none ∧ stageSym sym text = none)) := by
  by_cases ht : text.isEmpty
  · have h0 : text = [] := by simpa using ht
    subst h0
    simp [extract_answer_mugglemath]
  · have htne : text ≠ [] := by simpa using ht
    rw [extract_answer_mugglemath, if_neg ht]
    rcases h2 : stageBoxed text with _ | a
    · rcases h3 : stageSym sym text with _ | a
      · simp [htne]
      · have ha := stageSym_some_ne h3
        simp [htne, ha]
    · have ha := stageBoxed_some_ne h2
      simp [htne, ha]

/-- Every non-sentinel result of the metamath orchestrator is the value of
one of its stages. -/
theorem meta_result_cases (sym : List Char → Option (List Char))
    (text : List Char) :
    extract_answer_metamath sym text = [] ∨
    stagePhrase text = some (extract_answer_metamath sym text) ∨
    stageBoxed text = some (extract_answer_metamath sym text) ∨
    stageSym sym text = some (extract_answer_metamath sym text) := by
  by_cases ht : text.isEmpty
  · left
    rw [extract_answer_metamath, if_pos ht]
  · rw [extract_answer_metamath, if_neg ht]
    rcases h1 : stagePhrase text with _ | a
    · rcases h2 : stageBoxed text with _ | a
      · rcases h3 : stageSym sym text with _ | a
        · left; rfl
        · right; right; right; rfl
      · right; right; left; rfl
    · right; left; rfl

/-- Every non-sentinel result of the mugglemath orchestrator is the value
of one of its stages. -/
theorem muggle_result_cases (sym : List Char → Option (List Char))
    (text : List Char) :
    extract_answer_mugglemath sym text = [] ∨
    stageBoxed text = some (extract_answer_mugglemath sym text) ∨
    stageSym sym text = some (extract_answer_mugglemath sym text) := by
  by_cases ht : text.isEmpty
  · left
    rw [extract_answer_mugglemath, if_pos ht]
  · rw [extract_answer_mugglemath, if_neg ht]
    rcases h2 : stageBoxed text with _ | a
    · rcases h3 : stageSym sym text with _ | a
      · left; rfl
      · right; right; rfl
    · right; left; rfl

/-- The function `dropWhile` distributes over an append whose right part has a
non-whitespace head. -/
theorem dw_append {v : List Char}
    (hv : ∃ c r, v = c :: r ∧ isPySpace c = false) :
    ∀ p : List Char,
    (p ++ v).dropWhile isPySpace = p.dropWhile isPySpace ++ v := by
  intro p
  induction p with
  | nil =>
    obtain ⟨c, r, rfl, hc⟩ := hv
    have hneg : ¬ (isPySpace c = true) := by simp [hc]
    show ([] ++ c :: r).dropWhile isPySpace = [].dropWhile isPySpace ++ c :: r
    rw [List.nil_append, List.dropWhile_cons_of_neg hneg]
    rfl
  | cons a p' ih =>
    by_cases ha : isPySpace a
    · rw [List.cons_append, List.dropWhile_cons_of_pos ha,
        List.dropWhile_cons_of_pos ha]
      exact ih
    · rw [List.cons_append, List.dropWhile_cons_of_neg ha,
        List.dropWhile_cons_of_neg ha, List.cons_append]

/-- The function `trimRight` is the identity on an append whose last character is not
whitespace. -/
theorem trimRight_app_nonspace (u : List Char) {v : List Char}
    (hv : ∃ c r, v.reverse = c :: r ∧ isPySpace c = false) :
    trimRight (u ++ v) = u ++ v := by
  obtain ⟨c, r, hrev, hc⟩ := hv
  rw [trimRight, List.reverse_append, hrev, List.cons_append,
    List.dropWhile_cons_of_neg (by simp [hc]), ← List.cons_append, ← hrev,
    ← List.reverse_append, List.reverse_reverse]

/-! ### Claim theorems -/

/-- C1: when the last `\boxed` marker (or, when `\boxed` is absent, the
last `\fbox` marker) of the text is immediately followed by a
brace-balanced group with body `X` — nested braces included — the boxed
extraction stage (`last_boxed_only_string` composed with `remove_boxed`)
returns exactly `X`, whose whitespace-trimmed form is the extracted answer:
the full nested expression, never a prefix truncated at an inner closing
brace. -/
theorem claim1_boxed_extraction (s X q : List Char) (k : Nat) :
    (rfindIdx bxPat s = some k → s.drop k = bxBrace ++ X ++ '\x7d' :: q →
      bracedOk X = true →
      (last_boxed_only_string s).bind remove_boxed = some X ∧
      ((last_boxed_only_string s).bind remove_boxed).map pyStrip =
        some (pyStrip X)) ∧
    (rfindIdx bxPat s = none → rfindIdx fbPat s = some k →
      s.drop k = fbBrace ++ X ++ '\x7d' :: q → bracedOk X = true →
      (last_boxed_only_string s).bind remove_boxed = some X) := by
  constructor
  · intro hf hd hX
    have h := boxed_span_helper hf hd hX
    exact ⟨h, by rw [h]; rfl⟩
  · intro hnb hf hd hX
    exact fbox_span_helper hnb hf hd hX

/-- Witness for C1 at the concrete text `x\boxed{\frac{a}{b}}y`:
the nested group body is extracted whole. -/
theorem claim1_boxed_extraction_witness :
    (last_boxed_only_string
      ("x\\boxed\x7b\\frac\x7ba\x7d\x7bb\x7d\x7dy".toList)).bind remove_boxed =
      some ("\\frac\x7ba\x7d\x7bb\x7d".toList) :=
  ((claim1_boxed_extraction ("x\\boxed\x7b\\frac\x7ba\x7d\x7bb\x7d\x7dy".toList)
      ("\\frac\x7ba\x7d\x7bb\x7d".toList) ("y".toList) 1).1
    (by decide) (by decide) (by decide)).1

/-- C2: the boxed stage anchors at the last occurrence of `\boxed`; the
last `\fbox` is used only when `\boxed` occurs nowhere; with neither
marker the stage returns `NotFound`; and with several `\boxed{...}`
occurrences the extracted answer is the content of the last one (earlier
occurrences live in the arbitrary prefix `p`). -/
theorem claim2_last_marker (p X q s : List Char) (k : Nat) :
    (rfindIdx bxPat s = none → rfindIdx fbPat s = none →
      last_boxed_only_string s = none) ∧
    (bracedOk X = true → containsSub bxPat (X ++ '\x7d' :: q) = false →
      (last_boxed_only_string (p ++ (bxBrace ++ X ++ '\x7d' :: q))).bind
        remove_boxed = some X) ∧
    (rfindIdx bxPat s = none → rfindIdx fbPat s = some k →
      s.drop k = fbBrace ++ X ++ '\x7d' :: q → bracedOk X = true →
      (last_boxed_only_string s).bind remove_boxed = some X) := by
  refine ⟨?_, ?_, ?_⟩
  · intro h1 h2
    rw [last_boxed_only_string, h1, h2]
  · intro hX hnb
    have hdrop0 : (p ++ (bxBrace ++ X ++ '\x7d' :: q)).drop p.length =
        bxBrace ++ X ++ '\x7d' :: q := List.drop_left _ _
    have hpre0 : bxPat <+: (bxBrace ++ X ++ '\x7d' :: q) := by
      rw [show bxBrace ++ X ++ '\x7d' :: q =
        bxPat ++ ('\x7b' :: (X ++ '\x7d' :: q)) by simp [bxBrace, bxPat]]
      exact List.prefix_append _ _
    have hno : ∀ j, p.length < j →
        ¬ bxPat <+: (p ++ (bxBrace ++ X ++ '\x7d' :: q)).drop j := by
      intro j hj hcon
      have hjr : j = p.length + (j - p.length) := by omega
      rw [hjr, List.drop_append] at hcon
      set r := j - p.length with hr
      have hrpos : 1 ≤ r := by omega
      by_cases hr6 : r ≤ 6
      · have hsplit : (bxBrace ++ X ++ '\x7d' :: q).drop r =
            bxBrace.drop r ++ (X ++ '\x7d' :: q) := by
          rw [List.append_assoc]
          exact List.drop_append_of_le_length (by simp [bxBrace]; omega)
        rw [hsplit] at hcon
        rcases pre_append_cases hcon with h1 | ⟨h2, h3⟩
        · interval_cases r
          · exact absurd h1 (by decide)
          · exact absurd h1 (by decide)
          · exact absurd h1 (by decide)
          · exact absurd h1 (by decide)
          · exact absurd h1 (by decide)
          · exact absurd h1 (by decide)
        · interval_cases r
          · exact absurd h2 (by decide)
          · exact absurd h2 (by decide)
          · exact absurd h2 (by decide)
          · exact absurd h2 (by decide)
          · exact absurd h2 (by decide)
          · exact absurd h2 (by decide)
      · rw [List.append_assoc] at hcon
        rw [show r = bxBrace.length + (r - 7) by simp [bxBrace]; omega] at hcon
        rw [List.drop_append] at hcon
        have hsub := (sub_iff bxPat (X ++ '\x7d' :: q)).mpr ⟨r - 7, hcon⟩
        rw [hnb] at hsub
        cases hsub
    have hrf : rfindIdx bxPat (p ++ (bxBrace ++ X ++ '\x7d' :: q)) =
        some p.length := by
      rw [rfindIdx]
      have h0 := rfindAux_last (p ++ (bxBrace ++ X ++ '\x7d' :: q)) p.length 0
        (by rw [hdrop0]; exact hpre0) hno
      simpa using h0
    exact boxed_span_helper hrf hdrop0 hX
  · intro hnb hf hd hX
    exact fbox_span_helper hnb hf hd hX

/-- Witness for C2 at the concrete text `\boxed{1} \boxed{2}`: the content
of the last boxed group is extracted. -/
theorem claim2_last_marker_witness :
    (last_boxed_only_string (("\\boxed\x7b1\x7d ".toList) ++
      (bxBrace ++ ['2'] ++ '\x7d' :: []))).bind remove_boxed = some ['2'] :=
  (claim2_last_marker ("\\boxed\x7b1\x7d ".toList) ['2'] [] [] 0).2.1
    (by decide) (by decide)

/-- Counterexample to C3: on an input with an unbalanced `\boxed{` and a
valid trailing `#### 9`, the boxed-first orchestrator
(`create_gsm8k_mugglemath.py`, symbolic collaborator unavailable) returns
the empty sentinel, not `"9"`: that script has no phrase stage to fall
through to. -/
theorem claim3_counterexample :
    extract_answer_mugglemath noSym
      ("We see \\boxed\x7b1 + 2 is unfinished\n#### 9".toList) = [] ∧
    ([] : List Char) ≠ "9".toList := by
  exact ⟨by decide, by decide⟩

/-- C3 as amended: on an input with an unbalanced `\boxed{` and a valid
trailing `#### 9`, the phrase-first orchestrator (metamath/mumath) returns
`"9"` whatever the symbolic stage does, while the boxed-first script
(mugglemath), having no phrase stage, falls through to the symbolic stage
and — with that collaborator unavailable — returns the empty sentinel. -/
theorem claim3_amended :
    (∀ sym, extract_answer_metamath sym
      ("We see \\boxed\x7b1 + 2 is unfinished\n#### 9".toList) = "9".toList) ∧
    extract_answer_mugglemath noSym
      ("We see \\boxed\x7b1 + 2 is unfinished\n#### 9".toList) = [] := by
  constructor
  · intro sym
    rw [extract_answer_metamath, if_neg (by decide)]
    rw [show stagePhrase
      ("We see \\boxed\x7b1 + 2 is unfinished\n#### 9".toList) =
        some ("9".toList) from by decide]
  · decide

/-- Counterexample to C4: a `}` between the marker and the first `{` is
not skipped; on `\boxed}{5}` the marker is found at index 0, yet the stage
returns `none` instead of the claimed span ending where the depth first
returns to 0 after having gone positive. -/
theorem claim4_counterexample :
    rfindIdx bxPat ("\\boxed\x7d\x7b5\x7d".toList) = some 0 ∧
    last_boxed_only_string ("\\boxed\x7d\x7b5\x7d".toList) = none := by
  exact ⟨by decide, by decide⟩

/-- C4 as amended: the brace counter counts every `{` and `}` from the
marker onward, starting at zero — a `}` seen before the first `{` drives
it negative rather than being skipped.  Consequently, for a last marker
followed by brace-free text, a stray `}`, then a simple group `{X}` and a
brace-free remainder, the scan never sees the counter return to zero at a
closing brace and the stage yields `none`. -/
theorem claim4_amended (s w X q : List Char) (k : Nat)
    (hf : rfindIdx bxPat s = some k)
    (hd : s.drop k = bxPat ++ w ++ '\x7d' :: '\x7b' :: (X ++ '\x7d' :: q))
    (hw : braceFree w = true) (hX : braceFree X = true)
    (hq : braceFree q = true) :
    last_boxed_only_string s = none := by
  have hqo : q.all (fun c => !(c = '\x7b')) = true := by
    rw [braceFree] at hq
    simp only [List.all_eq_true] at hq ⊢
    intro c hc
    have h5 := hq c hc
    simp only [Bool.not_eq_true', Bool.or_eq_false_iff,
      decide_eq_false_iff_not] at h5
    simpa using h5.1
  have hscan : scanLoop 0 k (s.drop k) = none := by
    rw [hd]
    rw [show bxPat ++ w ++ '\x7d' :: '\x7b' :: (X ++ '\x7d' :: q) =
      bxPat ++ (w ++ ('\x7d' :: '\x7b' :: (X ++ '\x7d' :: q))) by simp]
    rw [scan_skip bxPat 0 k _ (by decide)]
    rw [scan_skip w 0 (k + bxPat.length) _ hw]
    rw [scan_close_cont 0 _ _ (by omega)]
    rw [scan_open]
    rw [show (0 : Int) - 1 + 1 = 0 by omega]
    rw [scan_skip X 0 _ _ hX]
    rw [scan_close_cont 0 _ _ (by omega)]
    exact scan_noOpen q (0 - 1) _ (by omega) hqo
  rw [last_boxed_only_string, hf]
  simp only [boxedScan, hscan]

/-- Witness for C4 as amended, at the concrete text `z\boxed}{7}`. -/
theorem claim4_amended_witness :
    last_boxed_only_string ("z\\boxed\x7d\x7b7\x7d".toList) = none :=
  claim4_amended ("z\\boxed\x7d\x7b7\x7d".toList) [] ['7'] [] 1
    (by decide) (by decide) (by decide) (by decide) (by decide)

/-- Counterexample to C5: the regexes are `[Tt]he answer is...` — only the
first letter is case-insensitive — so the fully upper-case phrase matches
no pattern and extraction fails instead of returning `"42"`. -/
theorem claim5_counterexample :
    extract_answer_from_text ("THE ANSWER IS: 42.".toList) = none := by
  decide

/-- C5 as amended: only the leading letter of the phrase is
case-insensitive.  `The answer is: 42.` and `the answer is: 42.` both give
`"42"` with the trailing period stripped, while `THE ANSWER IS: 42.`
matches no rule. -/
theorem claim5_amended :
    extract_answer_from_text ("The answer is: 42.".toList) =
      some ("42".toList) ∧
    extract_answer_from_text ("the answer is: 42.".toList) =
      some ("42".toList) ∧
    extract_answer_from_text ("THE ANSWER IS: 42.".toList) = none := by
  exact ⟨by decide, by decide, by decide⟩

/-- Counterexample to C6: rules 1 and 2 are tried before the `#### ` rule,
so a phrase marker in the prefix wins: on `The answer is: 5\n#### 17` the
extraction returns `"5"`, not `"17"`, although the text ends in
`#### 17`. -/
theorem claim6_counterexample :
    extract_answer_from_text ("The answer is: 5\n#### 17".toList) =
      some ("5".toList) ∧
    some ("5".toList) ≠ some ("17".toList) := by
  exact ⟨by decide, by decide⟩

/-- C6 as amended: for text ending in `#### 17` whose prefix contains
neither the phrase literal `he answer is` (so rules 1 and 2 cannot fire
anywhere in the text) nor an earlier `#### ` occurrence, rule 3 matches
the final marker and the extraction returns `"17"`. -/
theorem claim6_amended (p : List Char)
    (hph : containsSub phrasePat (p ++ (hashPat ++ ['1', '7'])) = false)
    (hhash : containsSub hashPat p = false) :
    extract_answer_from_text (p ++ (hashPat ++ ['1', '7'])) =
      some ['1', '7'] := by
  have htne : (p ++ (hashPat ++ ['1', '7'])).isEmpty = false := by
    cases p <;> rfl
  have hv1 : ∃ c r, hashPat ++ ['1', '7'] = c :: r ∧ isPySpace c = false :=
    ⟨'#', ['#', '#', '#', ' ', '1', '7'], by decide, by decide⟩
  have hv2 : ∃ c r, (hashPat ++ ['1', '7']).reverse = c :: r ∧
      isPySpace c = false :=
    ⟨'7', ['1', ' ', '#', '#', '#', '#'], by decide, by decide⟩
  have hstrip : pyStrip (p ++ (hashPat ++ ['1', '7'])) =
      p.dropWhile isPySpace ++ (hashPat ++ ['1', '7']) := by
    rw [pyStrip, dw_append hv1 p]
    exact trimRight_app_nonspace _ hv2
  have hph' : containsSub phrasePat
      (pyStrip (p ++ (hashPat ++ ['1', '7']))) = false := by
    cases hcs : containsSub phrasePat (pyStrip (p ++ (hashPat ++ ['1', '7'])))
    · rfl
    · have h2 := sub_strip hcs
      rw [hph] at h2
      cases h2
  have hhash' : containsSub hashPat (p.dropWhile isPySpace) = false := by
    cases hcs : containsSub hashPat (p.dropWhile isPySpace)
    · rfl
    · have h2 := sub_append_left (p.takeWhile isPySpace) hcs
      rw [List.takeWhile_append_dropWhile] at h2
      rw [hhash] at h2
      cases h2
  have hsp1 : searchPat1 (pyStrip (p ++ (hashPat ++ ['1', '7']))) = none :=
    sp1_none _ hph'
  have hsp2 : searchPat2 (pyStrip (p ++ (hashPat ++ ['1', '7']))) = none :=
    sp2_none _ hph'
  have hsp3 : searchPat3 (pyStrip (p ++ (hashPat ++ ['1', '7']))) =
      some ['1', '7'] := by
    rw [hstrip]
    rw [sp3_skip (hashPat ++ ['1', '7']) ?_ _ hhash']
    · decide
    · intro m h1 h4
      interval_cases m
      · decide
      · decide
      · decide
      · decide
  rw [extract_answer_from_text]
  rw [htne]
  simp only [Bool.false_eq_true, if_false, hsp1, hsp2, hsp3,
    Option.none_bind, Option.some_bind]
  decide

/-- Witness for C6 as amended, at the concrete prefix `abc` + newline. -/
theorem claim6_amended_witness :
    extract_answer_from_text ("abc\n".toList ++ (hashPat ++ ['1', '7'])) =
      some ['1', '7'] :=
  claim6_amended ("abc\n".toList) (by decide) (by decide)

/-- C7: the orchestrators are total functions of their stage results (the
shallow embedding absorbs per-stage failures by construction); each one
returns the empty sentinel exactly when the input is empty or every
enabled stage yields `NotFound`, and on empty input both orderings return
the empty sentinel. -/
theorem claim7_orchestrator_sentinel (sym : List Char → Option (List Char))
    (text : List Char) :
    (extract_answer_metamath sym text = [] ↔
      (text = [] ∨ (stagePhrase text = none ∧ stageBoxed text = none ∧
        stageSym sym text = none))) ∧
    (extract_answer_mugglemath sym text = [] ↔
      (text = [] ∨ (stageBoxed text = none ∧ stageSym sym text = none))) ∧
    extract_answer_metamath sym [] = [] ∧
    extract_answer_mugglemath sym [] = [] := by
  exact ⟨meta_empty_iff sym text, muggle_empty_iff sym text, rfl, rfl⟩

/-- Counterexample to C8: the boxed stage strips whitespace but not
trailing periods, so `\boxed{5.}` extracts to `"5."`, not `"5"` — under
both orchestrators (here metamath with the collaborator unavailable). -/
theorem claim8_counterexample :
    extract_answer_metamath noSym ("\\boxed\x7b5.\x7d".toList) =
      "5.".toList ∧
    "5.".toList ≠ "5".toList := by
  exact ⟨by decide, by decide⟩

/-- C8 as amended: every result of either orchestrator, when non-empty, is
whitespace-trimmed (a fixed point of stripping); trailing-period removal
is performed only by the phrase rules, not by the boxed or symbolic
stages. -/
theorem claim8_amended (sym : List Char → Option (List Char))
    (text : List Char) :
    (extract_answer_metamath sym text ≠ [] →
      pyStrip (extract_answer_metamath sym text) =
        extract_answer_metamath sym text) ∧
    (extract_answer_mugglemath sym text ≠ [] →
      pyStrip (extract_answer_mugglemath sym text) =
        extract_answer_mugglemath sym text) := by
  constructor
  · intro hne
    rcases meta_result_cases sym text with h | h | h | h
    · exact absurd h hne
    · exact stagePhrase_some_trim h
    · exact stageBoxed_some_trim h
    · exact stageSym_some_trim h
  · intro hne
    rcases muggle_result_cases sym text with h | h | h
    · exact absurd h hne
    · exact stageBoxed_some_trim h
    · exact stageSym_some_trim h

/-- Witness for C8 as amended at a concrete phrase-extracted answer. -/
theorem claim8_amended_witness :
    pyStrip (extract_answer_metamath noSym ("x #### 3".toList)) =
      extract_answer_metamath noSym ("x #### 3".toList) :=
  (claim8_amended noSym ("x #### 3".toList)).1 (by decide)

/-- C9: when the extracted span starts with `\boxed ` (spaced form),
`remove_boxed` returns everything after the space with braces retained —
the spaced-prefix rule precedes the braced-wrapper rules — so the text
`\boxed {5}` extracts to `{5}`. -/
theorem claim9_spaced_boxed (rest : List Char) :
    remove_boxed (bxSpace ++ rest) = some rest ∧
    (last_boxed_only_string ("\\boxed \x7b5\x7d".toList)).bind remove_boxed =
      some ("\x7b5\x7d".toList) := by
  constructor
  · have hpre : bxSpace.isPrefixOf (bxSpace ++ rest) = true := by
      rw [ List.isPrefixOf_iff_prefix]
      exact List.prefix_append _ _
    have hsub : containsSub bxSpace (bxSpace ++ rest) = true :=
      (sub_iff _ _).mpr ⟨0, by simp⟩
    rw [remove_boxed, hsub, hpre]
    simp only [Bool.and_self, if_true]
    rw [List.drop_left' (by rfl : bxSpace.length = 7)]
  · decide

/-- C10: when no `{` occurs at or after the last marker (`\boxed`, or
`\fbox` when `\boxed` is absent), `last_boxed_only_string` returns `none`
and the boxed stage falls through — the spaced form without braces is
never extracted by this stage. -/
theorem claim10_no_open_brace (s : List Char) (k : Nat) :
    (rfindIdx bxPat s = some k →
      (s.drop k).all (fun c => !(c = '\x7b')) = true →
      last_boxed_only_string s = none) ∧
    (rfindIdx bxPat s = none → rfindIdx fbPat s = some k →
      (s.drop k).all (fun c => !(c = '\x7b')) = true →
      last_boxed_only_string s = none) := by
  constructor
  · intro hf hall
    rw [last_boxed_only_string, hf]
    simp only [boxedScan, scan_noOpen (s.drop k) 0 k (by omega) hall]
  · intro hnb hf hall
    rw [last_boxed_only_string, hnb, hf]
    simp only [boxedScan, scan_noOpen (s.drop k) 0 k (by omega) hall]

/-- Witness for C10 at the concrete text `\boxed 5`. -/
theorem claim10_no_open_brace_witness :
    last_boxed_only_string ("\\boxed 5".toList) = none :=
  (claim10_no_open_brace ("\\boxed 5".toList) 0).1 (by decide) (by decide)

